import Mathlib

set_option maxRecDepth 20000

/-!
Verification of the finite-float value type (`src/lib.rs`).

The underlying IEEE-754 primitive (`f32` / `f64`) is modelled by the
inductive type `Fp`: a primitive value is NaN, a signed infinity, a signed
zero, or a nonzero finite value represented by its exact rational value.
Primitive arithmetic on finite values is exact rational arithmetic followed
by round-to-nearest-even into the format (`roundRat`), with overflow to
infinity and underflow to a signed zero, as IEEE-754 prescribes for the
default rounding mode.

The wrapper type `FiniteFloat fmt` mirrors `pub struct Float32(f32)` /
`Float64(f64)`; its operations are translated clause by clause from the
source.  A format (`FloatFormat`) carries the precision and exponent range,
instantiated as `f32Format` and `f64Format`.
-/

/-- Model of an IEEE-754 primitive floating point value, by classification.
`fin q` is a nonzero finite value with exact rational value `q`
(covering both normal and subnormal magnitudes). -/
inductive Fp where
  | nan : Fp
  | inf (neg : Bool) : Fp
  | zero (neg : Bool) : Fp
  | fin (q : ℚ) : Fp
deriving DecidableEq

/-- An IEEE-754 binary format: precision (in bits) and normal exponent range.
`emin` is the exponent of the smallest normal magnitude, `emax` the exponent
of the largest finite magnitude. -/
structure FloatFormat where
  prec : ℕ
  emin : ℤ
  emax : ℤ

/-- The `f32` format: 24-bit precision, normal range `2^(-126)` to just under `2^128`. -/
def f32Format : FloatFormat := ⟨24, -126, 127⟩

/-- The `f64` format: 53-bit precision, normal range `2^(-1022)` to just under `2^1024`. -/
def f64Format : FloatFormat := ⟨53, -1022, 1023⟩

/-- Addition on ℚ, kept kernel-reducible (the library operation is sealed). -/
def qadd (a b : ℚ) : ℚ := mkRat (a.num * b.den + b.num * a.den) (a.den * b.den)

/-- Multiplication on ℚ, kept kernel-reducible. -/
def qmul (a b : ℚ) : ℚ := mkRat (a.num * b.num) (a.den * b.den)

/-- Negation on ℚ, kept kernel-reducible. -/
def qneg (a : ℚ) : ℚ := mkRat (-a.num) a.den

/-- Inverse on ℚ, kept kernel-reducible. -/
def qinv (a : ℚ) : ℚ := Rat.divInt a.den a.num

/-- Division on ℚ, kept kernel-reducible. -/
def qdiv (a b : ℚ) : ℚ := qmul a (qinv b)

/-- `2^e` on ℕ by square-and-multiply, with fuel bounding the recursion
depth logarithmically (the library power is linear-depth). -/
def pow2NatAux : ℕ → ℕ → ℕ
  | 0, _ => 1
  | fuel + 1, e =>
    if e = 0 then 1
    else
      let h := pow2NatAux fuel (e / 2)
      if e % 2 = 0 then h * h else h * h * 2

/-- `2^e` on ℕ, for exponents below `2^20`. -/
def pow2Nat (e : ℕ) : ℕ := pow2NatAux 20 e

/-- `2^e` as a rational, for an arbitrary integer exponent. -/
def pow2 (e : ℤ) : ℚ :=
  if 0 ≤ e then mkRat (pow2Nat e.toNat) 1 else mkRat 1 (pow2Nat (-e).toNat)

/-- Absolute value on ℚ, kept definitionally simple for kernel evaluation. -/
def ratAbs (q : ℚ) : ℚ := if q < 0 then qneg q else q

/-- Smallest positive normal magnitude of the format (`f32::MIN_POSITIVE`). -/
def FloatFormat.minNormal (fmt : FloatFormat) : ℚ := pow2 fmt.emin

/-- Largest finite magnitude of the format (`f32::MAX`). -/
def FloatFormat.maxFinite (fmt : FloatFormat) : ℚ :=
  qmul ((pow2Nat fmt.prec - 1 : ℕ) : ℚ) (pow2 (fmt.emax - fmt.prec + 1))

/-- Floor of a rational, computed by floor division of numerator by denominator. -/
def ratFloor (x : ℚ) : ℤ := Int.fdiv x.num x.den

/-- Round a rational to the nearest integer, ties to even. -/
def rne (x : ℚ) : ℤ :=
  let f := ratFloor x
  let r := qadd x (qneg (f : ℚ))
  if r < mkRat 1 2 then f
  else if mkRat 1 2 < r then f + 1
  else if f % 2 = 0 then f else f + 1

/-- Binary search for the largest `e` in `[lo, hi)` with `2^e ≤ n`, maintaining
`2^lo ≤ n < 2^hi`; the fuel bounds the recursion depth. -/
def natLog2Search : ℕ → ℕ → ℕ → ℕ → ℕ
  | 0, lo, _, _ => lo
  | fuel + 1, lo, hi, n =>
    if hi ≤ lo + 1 then lo
    else
      let mid := (lo + hi) / 2
      if pow2Nat mid ≤ n then natLog2Search fuel mid hi n else natLog2Search fuel lo mid n

/-- `⌊log₂ n⌋` for `1 ≤ n < 2^8192`. -/
def natFloorLog2 (n : ℕ) : ℕ := natLog2Search 13 0 8192 n

/-- `⌊log₂ a⌋` for positive `a` within the exponent range of interest.
For `a ≥ 1` this is `⌊log₂ ⌊a⌋⌋`; for `a < 1` it is `-⌈log₂ ⌈1/a⌉⌉`,
with `⌈log₂ m⌉ = ⌊log₂ (m-1)⌋ + 1` for an integer `m ≥ 2`. -/
def floorLog2 (a : ℚ) : ℤ :=
  if 1 ≤ a then (natFloorLog2 (a.num.toNat / a.den) : ℤ)
  else
    let c := (a.den + a.num.toNat - 1) / a.num.toNat
    if c ≤ 1 then 0 else -((natFloorLog2 (c - 1) : ℤ) + 1)

/-- Round an exact rational into the format, IEEE-754 round-to-nearest-even:
the result is a signed zero (underflow), the exact nearest representable
value (possibly subnormal), or a signed infinity (overflow). -/
def roundRat (fmt : FloatFormat) (q : ℚ) : Fp :=
  if q = 0 then Fp.zero false
  else
    let neg : Bool := decide (q < 0)
    let a := ratAbs q
    let e : ℤ := max (floorLog2 a) fmt.emin
    let quantum := pow2 (e - fmt.prec + 1)
    let n := rne (qdiv a quantum)
    let v := qmul (n : ℚ) quantum
    if v = 0 then Fp.zero neg
    else if fmt.maxFinite < ratAbs v then Fp.inf neg
    else Fp.fin (if neg then qneg v else v)

/-- Primitive negation: exact. -/
def fpNeg : Fp → Fp
  | Fp.nan => Fp.nan
  | Fp.inf s => Fp.inf (!s)
  | Fp.zero s => Fp.zero (!s)
  | Fp.fin q => Fp.fin (qneg q)

/-- Primitive addition (round-to-nearest-even).  Zero-operand and
infinite-operand cases follow IEEE-754; the finite-finite case rounds the
exact rational sum. -/
def fpAdd (fmt : FloatFormat) : Fp → Fp → Fp
  | Fp.nan, _ => Fp.nan
  | _, Fp.nan => Fp.nan
  | Fp.inf s1, Fp.inf s2 => if s1 = s2 then Fp.inf s1 else Fp.nan
  | Fp.inf s, Fp.zero _ => Fp.inf s
  | Fp.inf s, Fp.fin _ => Fp.inf s
  | Fp.zero _, Fp.inf s => Fp.inf s
  | Fp.fin _, Fp.inf s => Fp.inf s
  | Fp.zero s1, Fp.zero s2 => if s1 = s2 then Fp.zero s1 else Fp.zero false
  | Fp.zero _, Fp.fin q => Fp.fin q
  | Fp.fin q, Fp.zero _ => Fp.fin q
  | Fp.fin q1, Fp.fin q2 => roundRat fmt (qadd q1 q2)

/-- Primitive subtraction: `x - y = x + (-y)`, exactly as in IEEE-754. -/
def fpSub (fmt : FloatFormat) (x y : Fp) : Fp := fpAdd fmt x (fpNeg y)

/-- Primitive multiplication (round-to-nearest-even).  The sign of a zero
result is the XOR of the operand signs, as IEEE-754 prescribes. -/
def fpMul (fmt : FloatFormat) : Fp → Fp → Fp
  | Fp.nan, _ => Fp.nan
  | _, Fp.nan => Fp.nan
  | Fp.inf s1, Fp.inf s2 => Fp.inf (xor s1 s2)
  | Fp.inf _, Fp.zero _ => Fp.nan
  | Fp.zero _, Fp.inf _ => Fp.nan
  | Fp.inf s, Fp.fin q => Fp.inf (xor s (decide (q < 0)))
  | Fp.fin q, Fp.inf s => Fp.inf (xor (decide (q < 0)) s)
  | Fp.zero s1, Fp.zero s2 => Fp.zero (xor s1 s2)
  | Fp.zero s, Fp.fin q => Fp.zero (xor s (decide (q < 0)))
  | Fp.fin q, Fp.zero s => Fp.zero (xor (decide (q < 0)) s)
  | Fp.fin q1, Fp.fin q2 => roundRat fmt (qmul q1 q2)

/-- Three-way comparison of rationals. -/
def ratCmp (a b : ℚ) : Ordering :=
  if a < b then Ordering.lt else if b < a then Ordering.gt else Ordering.eq

/-- Primitive comparison (`PartialOrd::partial_cmp` on `f32`/`f64`):
undefined (`none`) exactly when an operand is NaN; both zeros compare equal. -/
def fpCompare : Fp → Fp → Option Ordering
  | Fp.nan, _ => none
  | _, Fp.nan => none
  | Fp.inf s1, Fp.inf s2 =>
    some (if s1 = s2 then Ordering.eq else if s1 then Ordering.lt else Ordering.gt)
  | Fp.inf s, Fp.zero _ => some (if s then Ordering.lt else Ordering.gt)
  | Fp.inf s, Fp.fin _ => some (if s then Ordering.lt else Ordering.gt)
  | Fp.zero _, Fp.inf s => some (if s then Ordering.gt else Ordering.lt)
  | Fp.fin _, Fp.inf s => some (if s then Ordering.gt else Ordering.lt)
  | Fp.zero _, Fp.zero _ => some Ordering.eq
  | Fp.zero _, Fp.fin q => some (ratCmp 0 q)
  | Fp.fin q, Fp.zero _ => some (ratCmp q 0)
  | Fp.fin q1, Fp.fin q2 => some (ratCmp q1 q2)

/-- The primitive test `val > 0.0` used in the source. -/
def fpIsPos (x : Fp) : Bool := decide (fpCompare x (Fp.zero false) = some Ordering.gt)

/-- `core::num::FpCategory`. -/
inductive FpCategory where
  | nanCat : FpCategory
  | infiniteCat : FpCategory
  | zeroCat : FpCategory
  | subnormalCat : FpCategory
  | normalCat : FpCategory
deriving DecidableEq

/-- `f32::classify` / `f64::classify` on the model. -/
def Fp.classify (fmt : FloatFormat) : Fp → FpCategory
  | Fp.nan => FpCategory.nanCat
  | Fp.inf _ => FpCategory.infiniteCat
  | Fp.zero _ => FpCategory.zeroCat
  | Fp.fin q =>
    if ratAbs q < fmt.minNormal then FpCategory.subnormalCat else FpCategory.normalCat

/-- The wrapper type: `pub struct Float32(f32)` / `pub struct Float64(f64)`,
parametrized by format as both width instantiations share the same logic. -/
structure FiniteFloat (fmt : FloatFormat) where
  val : Fp
deriving DecidableEq

/-- `NanError`: conversion from NaN attempted. -/
inductive NanError where
  | mk : NanError
deriving DecidableEq

/-- `MANTISSA_DIGITS`: number of significant digits in base 2. -/
def FiniteFloat.MANTISSA_DIGITS (fmt : FloatFormat) : ℕ := fmt.prec

/-- `ZERO`: the canonical (positive) zero. -/
def FiniteFloat.ZERO (fmt : FloatFormat) : FiniteFloat fmt := ⟨Fp.zero false⟩

/-- `EPSILON`: difference between `1.0` and the next larger representable number. -/
def FiniteFloat.EPSILON (fmt : FloatFormat) : FiniteFloat fmt :=
  ⟨Fp.fin (pow2 (1 - fmt.prec))⟩

/-- `MIN`: smallest (most negative) value. -/
def FiniteFloat.MIN (fmt : FloatFormat) : FiniteFloat fmt := ⟨Fp.fin (qneg fmt.maxFinite)⟩

/-- `MAX`: largest value. -/
def FiniteFloat.MAX (fmt : FloatFormat) : FiniteFloat fmt := ⟨Fp.fin fmt.maxFinite⟩

/-- `MIN_POSITIVE`: smallest positive value. -/
def FiniteFloat.MIN_POSITIVE (fmt : FloatFormat) : FiniteFloat fmt :=
  ⟨Fp.fin fmt.minNormal⟩

/-- `MAX_NEGATIVE`: largest negative value, `-MIN_POSITIVE`. -/
def FiniteFloat.MAX_NEGATIVE (fmt : FloatFormat) : FiniteFloat fmt :=
  ⟨Fp.fin (qneg fmt.minNormal)⟩

/-- `get`: return the value as the primitive type. -/
def FiniteFloat.get {fmt : FloatFormat} (x : FiniteFloat fmt) : Fp := x.val

/-- `from_primitive_with_underflow_sign`: classify `val` and map it into the
representable domain.  `val` can't be NaN (the source panics via
`unreachable!()`; the model returns a poison value there, shown unreachable
separately).  `underflow_sign` is consulted only when `val` is a zero. -/
def FiniteFloat.from_primitive_with_underflow_sign (fmt : FloatFormat)
    (val : Fp) (underflow_sign : Unit → Ordering) : FiniteFloat fmt :=
  match Fp.classify fmt val with
  | FpCategory.nanCat => ⟨Fp.nan⟩
  | FpCategory.infiniteCat =>
    if fpIsPos val then FiniteFloat.MAX fmt else FiniteFloat.MIN fmt
  | FpCategory.zeroCat =>
    match underflow_sign () with
    | Ordering.lt => FiniteFloat.MAX_NEGATIVE fmt
    | Ordering.eq => ⟨Fp.zero false⟩
    | Ordering.gt => FiniteFloat.MIN_POSITIVE fmt
  | FpCategory.subnormalCat =>
    if fpIsPos val then FiniteFloat.MIN_POSITIVE fmt else FiniteFloat.MAX_NEGATIVE fmt
  | FpCategory.normalCat => ⟨val⟩

/-- `from_primitive`: classification with a trivial underflow sign. -/
def FiniteFloat.from_primitive (fmt : FloatFormat) (val : Fp) : FiniteFloat fmt :=
  FiniteFloat.from_primitive_with_underflow_sign fmt val (fun _ => Ordering.eq)

/-- `new`: fallible public constructor, `None` on NaN. -/
def FiniteFloat.new (fmt : FloatFormat) (val : Fp) : Option (FiniteFloat fmt) :=
  if val = Fp.nan then none else some (FiniteFloat.from_primitive fmt val)

/-- `TryFrom::try_from`: `new`, with `NanError` in place of `None`. -/
def FiniteFloat.try_from (fmt : FloatFormat) (val : Fp) :
    Except NanError (FiniteFloat fmt) :=
  match FiniteFloat.new fmt val with
  | some x => Except.ok x
  | none => Except.error NanError.mk

/-- `Default::default`: yields `ZERO`. -/
def FiniteFloat.defaultValue (fmt : FloatFormat) : FiniteFloat fmt :=
  FiniteFloat.ZERO fmt

/-- `Ord::cmp`: `self.partial_cmp(other).unwrap()`.  The `unwrap` is modelled
totally with a default; the safety claim shows the `none` case unreachable. -/
def FiniteFloat.cmp {fmt : FloatFormat} (x y : FiniteFloat fmt) : Ordering :=
  (fpCompare x.val y.val).getD Ordering.eq

/-- `PartialEq::eq`, the derived field-wise primitive equality. -/
def FiniteFloat.beq {fmt : FloatFormat} (x y : FiniteFloat fmt) : Bool :=
  decide (fpCompare x.val y.val = some Ordering.eq)

/-- `sign`: comparison against `ZERO`. -/
def FiniteFloat.sign {fmt : FloatFormat} (x : FiniteFloat fmt) : Ordering :=
  FiniteFloat.cmp x (FiniteFloat.ZERO fmt)

/-- `Neg::neg`. -/
def FiniteFloat.neg {fmt : FloatFormat} (x : FiniteFloat fmt) : FiniteFloat fmt :=
  FiniteFloat.from_primitive fmt (fpNeg x.get)

/-- `Add::add`: the primitive sum, reclassified.  (Result is 0 iff `self == -rhs`.) -/
def FiniteFloat.add {fmt : FloatFormat} (x y : FiniteFloat fmt) : FiniteFloat fmt :=
  FiniteFloat.from_primitive fmt (fpAdd fmt x.get y.get)

/-- `Sub::sub`: the primitive difference, reclassified.  (Result is 0 iff `self == rhs`.) -/
def FiniteFloat.sub {fmt : FloatFormat} (x y : FiniteFloat fmt) : FiniteFloat fmt :=
  FiniteFloat.from_primitive fmt (fpSub fmt x.get y.get)

/-- `multiply_signs`: sign multiplication on `Ordering`. -/
def multiply_signs (lhs rhs : Ordering) : Ordering :=
  match lhs with
  | Ordering.lt => rhs.swap
  | Ordering.eq => Ordering.eq
  | Ordering.gt => rhs

/-- `Mul::mul`: the primitive product, reclassified with the underflow sign
derived from the operand signs. -/
def FiniteFloat.mul {fmt : FloatFormat} (x y : FiniteFloat fmt) : FiniteFloat fmt :=
  FiniteFloat.from_primitive_with_underflow_sign fmt (fpMul fmt x.get y.get)
    (fun _ => multiply_signs x.sign y.sign)

/-- `parse_sign_of_tiny_float`, the loop body over the bytes of the input
(`s.as_bytes()`); `sign` is the running sign.  Byte codes: 45 `'-'`,
43 `'+'`, 48 `'0'`, 46 `'.'`, 49–57 `'1'`–`'9'`. -/
def parse_sign_of_tiny_float_aux (sign : Ordering) : List Char → Ordering
  | [] => Ordering.eq
  | c :: rest =>
    if c.toNat = 45 then parse_sign_of_tiny_float_aux Ordering.lt rest
    else if c.toNat = 43 ∨ c.toNat = 48 ∨ c.toNat = 46 then
      parse_sign_of_tiny_float_aux sign rest
    else if 49 ≤ c.toNat ∧ c.toNat ≤ 57 then sign
    else Ordering.eq

/-- `parse_sign_of_tiny_float`: the sign of a floating point number that has
rounded to zero, recovered from its text. -/
def parse_sign_of_tiny_float (s : List Char) : Ordering :=
  parse_sign_of_tiny_float_aux Ordering.gt s

/-- `FromStr::from_str`, parametrized by the primitive parser
(`f32::from_str` / `f64::from_str`, which live outside this crate):
propagate the primitive parser's error, reject a NaN result, and otherwise
classify with the text-derived underflow sign. -/
def FiniteFloat.from_str (fmt : FloatFormat) (prim : List Char → Option Fp)
    (s : List Char) : Option (FiniteFloat fmt) :=
  match prim s with
  | none => none
  | some v =>
    if v = Fp.nan then none
    else
      some (FiniteFloat.from_primitive_with_underflow_sign fmt v
        (fun _ => parse_sign_of_tiny_float s))

/-- Well-formedness of a primitive value: a model `Fp` term that denotes an
actual bit pattern of the width.  A nonzero finite value is a nonzero
rational of finite magnitude; zeros, infinities and NaN carry no constraint. -/
def Fp.WF (fmt : FloatFormat) : Fp → Prop
  | Fp.fin q => q ≠ 0 ∧ ratAbs q ≤ fmt.maxFinite
  | _ => True

instance instDecFpWF (fmt : FloatFormat) : (v : Fp) → Decidable (Fp.WF fmt v)
  | Fp.nan => inferInstanceAs (Decidable True)
  | Fp.inf _ => inferInstanceAs (Decidable True)
  | Fp.zero _ => inferInstanceAs (Decidable True)
  | Fp.fin _ => inferInstanceAs (Decidable (_ ∧ _))

/-- The invariant of the wrapper type (§3 of the specification): the stored
primitive is positive zero or a normal (never NaN, infinite, subnormal, or
negative zero). -/
def FpValid (fmt : FloatFormat) : Fp → Prop
  | Fp.nan => False
  | Fp.inf _ => False
  | Fp.zero s => s = false
  | Fp.fin q => fmt.minNormal ≤ ratAbs q ∧ ratAbs q ≤ fmt.maxFinite

instance instDecFpValid (fmt : FloatFormat) : (v : Fp) → Decidable (FpValid fmt v)
  | Fp.nan => inferInstanceAs (Decidable False)
  | Fp.inf _ => inferInstanceAs (Decidable False)
  | Fp.zero s => inferInstanceAs (Decidable (s = false))
  | Fp.fin _ => inferInstanceAs (Decidable (_ ∧ _))

/-- Numeric sanity of a format, satisfied by both instantiations: the machine
epsilon lies between the smallest normal and the largest finite magnitude. -/
def FormatOK (fmt : FloatFormat) : Prop :=
  fmt.minNormal ≤ pow2 (1 - fmt.prec) ∧ pow2 (1 - fmt.prec) ≤ fmt.maxFinite ∧
    fmt.minNormal ≤ fmt.maxFinite

instance instDecFormatOK (fmt : FloatFormat) : Decidable (FormatOK fmt) :=
  inferInstanceAs (Decidable (_ ∧ _))

/-- The set of wrapper values produced by the public operations: the
constants, `new`, `try_from`, parsing, `default`, and the four arithmetic
operators applied to already-produced values.  `new`/`try_from` take any
well-formed primitive; the primitive parser is any function whose output at
the parsed string is well-formed. -/
inductive Produced (fmt : FloatFormat) : FiniteFloat fmt → Prop where
  | ofZERO : Produced fmt (FiniteFloat.ZERO fmt)
  | ofEPSILON : Produced fmt (FiniteFloat.EPSILON fmt)
  | ofMIN : Produced fmt (FiniteFloat.MIN fmt)
  | ofMAX : Produced fmt (FiniteFloat.MAX fmt)
  | ofMIN_POSITIVE : Produced fmt (FiniteFloat.MIN_POSITIVE fmt)
  | ofMAX_NEGATIVE : Produced fmt (FiniteFloat.MAX_NEGATIVE fmt)
  | ofDefault : Produced fmt (FiniteFloat.defaultValue fmt)
  | ofNew : ∀ (raw : Fp) (x : FiniteFloat fmt), Fp.WF fmt raw →
      FiniteFloat.new fmt raw = some x → Produced fmt x
  | ofTryFrom : ∀ (raw : Fp) (x : FiniteFloat fmt), Fp.WF fmt raw →
      FiniteFloat.try_from fmt raw = Except.ok x → Produced fmt x
  | ofParse : ∀ (prim : List Char → Option Fp) (s : List Char) (x : FiniteFloat fmt),
      (∀ v, prim s = some v → Fp.WF fmt v) →
      FiniteFloat.from_str fmt prim s = some x → Produced fmt x
  | ofNeg : ∀ x, Produced fmt x → Produced fmt (FiniteFloat.neg x)
  | ofAdd : ∀ x y, Produced fmt x → Produced fmt y → Produced fmt (FiniteFloat.add x y)
  | ofSub : ∀ x y, Produced fmt x → Produced fmt y → Produced fmt (FiniteFloat.sub x y)
  | ofMul : ∀ x y, Produced fmt x → Produced fmt y → Produced fmt (FiniteFloat.mul x y)

/-- The mapping `new` is claimed to implement, written out from the
specification's words: NaN fails; infinities saturate to `MAX`/`MIN`; any
zero maps to the canonical `ZERO`; a positive subnormal to `MIN_POSITIVE`
and a negative one to `MAX_NEGATIVE`; a normal value is stored unchanged. -/
def newSpec (fmt : FloatFormat) : Fp → Option (FiniteFloat fmt)
  | Fp.nan => none
  | Fp.inf false => some (FiniteFloat.MAX fmt)
  | Fp.inf true => some (FiniteFloat.MIN fmt)
  | Fp.zero _ => some (FiniteFloat.ZERO fmt)
  | Fp.fin q =>
    if ratAbs q < fmt.minNormal then
      some (if 0 < q then FiniteFloat.MIN_POSITIVE fmt else FiniteFloat.MAX_NEGATIVE fmt)
    else some ⟨Fp.fin q⟩

/-- Whether `c` is a nonzero decimal digit (`1`–`9`, byte codes 49–57). -/
def isNonzeroDigit (c : Char) : Bool := decide (49 ≤ c.toNat ∧ c.toNat ≤ 57)

/-- Whether `c` is a decimal digit (`0`–`9`, byte codes 48–57). -/
def isDigitCh (c : Char) : Bool := decide (48 ≤ c.toNat ∧ c.toNat ≤ 57)

/-- Claimed sign scan, fractional part: inside `digit*` after the `'.'` of the
prefix `[+-]? digit* ('.' digit*)?`.  A `'0'` is skipped, the first digit
`1`–`9` returns the running sign, and the end of the prefix (any non-digit,
or the end of input) returns "zero". -/
def scanFrac (sign : Ordering) : List Char → Ordering
  | [] => Ordering.eq
  | c :: rest =>
    if c.toNat = 48 then scanFrac sign rest
    else if isNonzeroDigit c then sign
    else Ordering.eq

/-- Claimed sign scan, integral part: inside the leading `digit*` of the
prefix `[+-]? digit* ('.' digit*)?`.  A `'0'` is skipped, the first digit
`1`–`9` returns the running sign, a `'.'` enters the fractional part, and
anything else ends the prefix, returning "zero". -/
def scanDigits (sign : Ordering) : List Char → Ordering
  | [] => Ordering.eq
  | c :: rest =>
    if c.toNat = 48 then scanDigits sign rest
    else if isNonzeroDigit c then sign
    else if c.toNat = 46 then scanFrac sign rest
    else Ordering.eq

/-- The sign-recovery scan exactly as the claim states it: scan left to right
over the prefix matching `[+-]? digit* ('.' digit*)?`; a leading `'-'` sets
the running sign to negative, a leading `'+'` is skipped; the first digit
`1`–`9` returns the running sign; reaching the end of that prefix, or any
other character, returns "zero". -/
def signScanSpec : List Char → Ordering
  | [] => Ordering.eq
  | c :: rest =>
    if c.toNat = 45 then scanDigits Ordering.lt rest
    else if c.toNat = 43 then scanDigits Ordering.gt rest
    else scanDigits Ordering.gt (c :: rest)

/-- Whether `c` may appear in the region the source's scan walks over:
a sign character, a digit, or the decimal point. -/
def tinyFloatChar (c : Char) : Bool :=
  decide (c.toNat = 45) || decide (c.toNat = 43) || decide (c.toNat = 46) || isDigitCh c

/-- The amended sign scan: the same per-character actions, but running over
the maximal prefix of characters drawn from `+`, `-`, `.` and the digits
(scanning stops at the first character outside that set, wherever it is). -/
def signScanAmendedAux (sign : Ordering) : List Char → Ordering
  | [] => Ordering.eq
  | c :: rest =>
    if c.toNat = 45 then signScanAmendedAux Ordering.lt rest
    else if isNonzeroDigit c then sign
    else signScanAmendedAux sign rest

/-- Amended claim: scan the maximal prefix of sign/digit/point characters,
`'-'` (anywhere in it) setting the running sign, `'+'`, `'0'`, `'.'`
skipped, the first `1`–`9` returning the running sign, and exhaustion of
that prefix returning "zero". -/
def signScanAmended (s : List Char) : Ordering :=
  signScanAmendedAux Ordering.gt (s.takeWhile tinyFloatChar)

/-- The constants the `impl` block actually makes public, in source order. -/
def publicConstants : List String :=
  ["MANTISSA_DIGITS", "ZERO", "EPSILON", "MIN", "MAX", "MIN_POSITIVE", "MAX_NEGATIVE"]

/-- The constants the claim says each width provides. -/
def claimedConstants : List String :=
  ["ZERO", "EPSILON", "MIN", "MAX", "MIN_POSITIVE", "MAX_NEGATIVE", "MANTISSA_DIGITS",
   "RADIX", "DIGITS", "MIN_EXP", "MAX_EXP", "MIN_10_EXP", "MAX_10_EXP"]

theorem qadd_eq (a b : ℚ) : qadd a b = a + b := (Rat.add_def' a b).symm

theorem qmul_eq (a b : ℚ) : qmul a b = a * b := (Rat.mul_eq_mkRat a b).symm

theorem qneg_eq (a : ℚ) : qneg a = -a := by
  rw [qneg, Rat.mkRat_eq_divInt, ← Rat.neg_def]

theorem qinv_eq (a : ℚ) : qinv a = a⁻¹ := (Rat.inv_def' a).symm

theorem qdiv_eq (a b : ℚ) : qdiv a b = a / b := by
  rw [qdiv, qmul_eq, qinv_eq, div_eq_mul_inv]

theorem ratAbs_eq (q : ℚ) : ratAbs q = |q| := by
  rw [ratAbs]
  split
  · rw [qneg_eq]
    exact (abs_of_neg (by assumption)).symm
  · exact (abs_of_nonneg (le_of_not_lt (by assumption))).symm

theorem pow2Nat_pos (e : ℕ) : 0 < pow2Nat e := by
  rw [pow2Nat]
  generalize 20 = fuel
  induction fuel generalizing e with
  | zero => exact Nat.one_pos
  | succ n ih =>
    rw [pow2NatAux]
    split
    · exact Nat.one_pos
    · split
      · exact Nat.mul_pos (ih _) (ih _)
      · exact Nat.mul_pos (Nat.mul_pos (ih _) (ih _)) (by norm_num)

theorem pow2_pos (e : ℤ) : 0 < pow2 e := by
  rw [pow2]
  split
  · rw [Rat.mkRat_one]
    exact_mod_cast pow2Nat_pos e.toNat
  · rw [Rat.mkRat_eq_div]
    apply div_pos one_pos
    exact_mod_cast pow2Nat_pos (-e).toNat

theorem minNormal_pos (fmt : FloatFormat) : 0 < fmt.minNormal := pow2_pos fmt.emin

/-- A finite, well-formed primitive: a signed zero, or a nonzero finite
value of bounded magnitude.  This is what the invariant guarantees about
stored values once the sign information is forgotten. -/
def FpFiniteWF (fmt : FloatFormat) : Fp → Prop
  | Fp.nan => False
  | Fp.inf _ => False
  | Fp.zero _ => True
  | Fp.fin q => q ≠ 0 ∧ ratAbs q ≤ fmt.maxFinite

theorem finiteWF_of_valid {fmt : FloatFormat} {v : Fp} (h : FpValid fmt v) :
    FpFiniteWF fmt v := by
  cases v with
  | nan => exact h
  | inf s => exact h
  | zero s => trivial
  | fin q =>
    refine ⟨fun hq => ?_, h.2⟩
    have := h.1
    rw [hq] at this
    exact absurd (lt_of_lt_of_le (minNormal_pos fmt) this) (by norm_num [ratAbs])

theorem fpNeg_finiteWF {fmt : FloatFormat} {v : Fp} (h : FpFiniteWF fmt v) :
    FpFiniteWF fmt (fpNeg v) := by
  cases v with
  | nan => exact h
  | inf s => exact h
  | zero s => trivial
  | fin q =>
    refine ⟨?_, ?_⟩
    · rw [qneg_eq]
      exact neg_ne_zero.mpr h.1
    · rw [ratAbs_eq, qneg_eq, abs_neg, ← ratAbs_eq]
      exact h.2

theorem roundRat_finiteWF_or_inf (fmt : FloatFormat) (q : ℚ) :
    FpFiniteWF fmt (roundRat fmt q) ∨ ∃ s, roundRat fmt q = Fp.inf s := by
  rw [roundRat]
  split
  · exact Or.inl trivial
  · dsimp only
    split
    · exact Or.inl trivial
    · split
      · exact Or.inr ⟨_, rfl⟩
      · refine Or.inl ?_
        split
        · refine ⟨?_, ?_⟩
          · rw [qneg_eq]
            exact neg_ne_zero.mpr (by assumption)
          · rw [ratAbs_eq, qneg_eq, abs_neg, ← ratAbs_eq]
            exact le_of_not_lt (by assumption)
        · exact ⟨by assumption, le_of_not_lt (by assumption)⟩

theorem fpAdd_finiteWF_or_inf {fmt : FloatFormat} {x y : Fp} (hx : FpFiniteWF fmt x)
    (hy : FpFiniteWF fmt y) :
    FpFiniteWF fmt (fpAdd fmt x y) ∨ ∃ s, fpAdd fmt x y = Fp.inf s := by
  cases x with
  | nan => exact absurd hx id
  | inf s => exact absurd hx id
  | zero s1 =>
    cases y with
    | nan => exact absurd hy id
    | inf s => exact absurd hy id
    | zero s2 =>
      left
      rw [fpAdd]
      split <;> trivial
    | fin q => exact Or.inl hy
  | fin q =>
    cases y with
    | nan => exact absurd hy id
    | inf s => exact absurd hy id
    | zero s2 => exact Or.inl hx
    | fin q2 => exact roundRat_finiteWF_or_inf fmt (qadd q q2)

theorem fpMul_finiteWF_or_inf {fmt : FloatFormat} {x y : Fp} (hx : FpFiniteWF fmt x)
    (hy : FpFiniteWF fmt y) :
    FpFiniteWF fmt (fpMul fmt x y) ∨ ∃ s, fpMul fmt x y = Fp.inf s := by
  cases x with
  | nan => exact absurd hx id
  | inf s => exact absurd hx id
  | zero s1 =>
    cases y with
    | nan => exact absurd hy id
    | inf s => exact absurd hy id
    | zero s2 => exact Or.inl trivial
    | fin q => exact Or.inl trivial
  | fin q =>
    cases y with
    | nan => exact absurd hy id
    | inf s => exact absurd hy id
    | zero s2 => exact Or.inl trivial
    | fin q2 => exact roundRat_finiteWF_or_inf fmt (qmul q q2)

theorem fpSub_finiteWF_or_inf {fmt : FloatFormat} {x y : Fp} (hx : FpFiniteWF fmt x)
    (hy : FpFiniteWF fmt y) :
    FpFiniteWF fmt (fpSub fmt x y) ∨ ∃ s, fpSub fmt x y = Fp.inf s :=
  fpAdd_finiteWF_or_inf hx (fpNeg_finiteWF hy)

/-- The classification construction maps any non-NaN well-formed primitive to
a value satisfying the invariant, whatever the underflow sign oracle says. -/
theorem valid_from_primitive_us {fmt : FloatFormat} (hfmt : FormatOK fmt)
    (val : Fp) (us : Unit → Ordering) (hwf : Fp.WF fmt val) (hn : val ≠ Fp.nan) :
    FpValid fmt ((FiniteFloat.from_primitive_with_underflow_sign fmt val us).val) := by
  obtain ⟨h1, h2, h3⟩ := hfmt
  have hminpos : 0 < fmt.minNormal := minNormal_pos fmt
  have hmax : 0 ≤ fmt.maxFinite := le_trans hminpos.le h3
  have habs_max : ratAbs fmt.maxFinite = fmt.maxFinite := by
    rw [ratAbs_eq, abs_of_nonneg hmax]
  have habs_negmax : ratAbs (qneg fmt.maxFinite) = fmt.maxFinite := by
    rw [ratAbs_eq, qneg_eq, abs_neg, abs_of_nonneg hmax]
  have habs_min : ratAbs fmt.minNormal = fmt.minNormal := by
    rw [ratAbs_eq, abs_of_nonneg hminpos.le]
  have habs_negmin : ratAbs (qneg fmt.minNormal) = fmt.minNormal := by
    rw [ratAbs_eq, qneg_eq, abs_neg, abs_of_nonneg hminpos.le]
  have hMAX : FpValid fmt (Fp.fin fmt.maxFinite) := by
    rw [FpValid, habs_max]
    exact ⟨h3, le_refl _⟩
  have hMIN : FpValid fmt (Fp.fin (qneg fmt.maxFinite)) := by
    rw [FpValid, habs_negmax]
    exact ⟨h3, le_refl _⟩
  have hMP : FpValid fmt (Fp.fin fmt.minNormal) := by
    rw [FpValid, habs_min]
    exact ⟨le_refl _, h3⟩
  have hMN : FpValid fmt (Fp.fin (qneg fmt.minNormal)) := by
    rw [FpValid, habs_negmin]
    exact ⟨le_refl _, h3⟩
  cases val with
  | nan => exact absurd rfl hn
  | inf s =>
    rw [FiniteFloat.from_primitive_with_underflow_sign, Fp.classify]
    cases s with
    | false => exact hMAX
    | true => exact hMIN
  | zero s =>
    rw [FiniteFloat.from_primitive_with_underflow_sign, Fp.classify]
    cases us () with
    | lt => exact hMN
    | eq => exact rfl
    | gt => exact hMP
  | fin q =>
    rw [FiniteFloat.from_primitive_with_underflow_sign, Fp.classify]
    by_cases hq : ratAbs q < fmt.minNormal
    · rw [if_pos hq]
      show FpValid fmt
        (if fpIsPos (Fp.fin q) = true then FiniteFloat.MIN_POSITIVE fmt
         else FiniteFloat.MAX_NEGATIVE fmt).val
      split
      · exact hMP
      · exact hMN
    · rw [if_neg hq]
      exact ⟨le_of_not_lt hq, hwf.2⟩

theorem wf_ne_nan_of_finiteWF_or_inf {fmt : FloatFormat} {v : Fp}
    (h : FpFiniteWF fmt v ∨ ∃ s, v = Fp.inf s) : Fp.WF fmt v ∧ v ≠ Fp.nan := by
  cases v with
  | nan =>
    rcases h with h | ⟨s, h⟩
    · exact absurd h id
    · exact absurd h (by intro hc; cases hc)
  | inf s => exact ⟨trivial, by intro hc; cases hc⟩
  | zero s => exact ⟨trivial, by intro hc; cases hc⟩
  | fin q =>
    rcases h with h | ⟨s, h⟩
    · exact ⟨h, by intro hc; cases hc⟩
    · exact absurd h (by intro hc; cases hc)

theorem valid_new {fmt : FloatFormat} (hfmt : FormatOK fmt) {raw : Fp}
    {x : FiniteFloat fmt} (hwf : Fp.WF fmt raw) (h : FiniteFloat.new fmt raw = some x) :
    FpValid fmt x.val := by
  rw [FiniteFloat.new] at h
  split at h
  · exact absurd h (by intro hc; cases hc)
  · cases h
    exact valid_from_primitive_us hfmt raw _ hwf (by assumption)

/-- C1: every value produced by a public operation — the constants, `new`,
`try_from`, parsing, negation, addition, subtraction, multiplication, or
`default` — stores a primitive that is a normal number or positive zero:
never NaN, an infinity, a subnormal magnitude, or negative zero. -/
theorem produced_valid {fmt : FloatFormat} (hfmt : FormatOK fmt)
    (x : FiniteFloat fmt) (hx : Produced fmt x) : FpValid fmt x.val := by
  obtain ⟨h1, h2, h3⟩ := hfmt
  have hminpos : 0 < fmt.minNormal := minNormal_pos fmt
  have hmax : 0 ≤ fmt.maxFinite := le_trans hminpos.le h3
  induction hx with
  | ofZERO => exact rfl
  | ofEPSILON =>
    have hp : 0 < pow2 (1 - (fmt.prec : ℤ)) := pow2_pos _
    refine ⟨?_, ?_⟩ <;> rw [ratAbs_eq, abs_of_nonneg hp.le]
    · exact h1
    · exact h2
  | ofMIN =>
    exact ⟨by rw [ratAbs_eq, qneg_eq, abs_neg, abs_of_nonneg hmax]; exact h3,
      by rw [ratAbs_eq, qneg_eq, abs_neg, abs_of_nonneg hmax]⟩
  | ofMAX =>
    exact ⟨by rw [ratAbs_eq, abs_of_nonneg hmax]; exact h3,
      by rw [ratAbs_eq, abs_of_nonneg hmax]⟩
  | ofMIN_POSITIVE =>
    exact ⟨by rw [ratAbs_eq, abs_of_nonneg hminpos.le],
      by rw [ratAbs_eq, abs_of_nonneg hminpos.le]; exact h3⟩
  | ofMAX_NEGATIVE =>
    exact ⟨by rw [ratAbs_eq, qneg_eq, abs_neg, abs_of_nonneg hminpos.le],
      by rw [ratAbs_eq, qneg_eq, abs_neg, abs_of_nonneg hminpos.le]; exact h3⟩
  | ofDefault => exact rfl
  | ofNew raw y hwf heq => exact valid_new ⟨h1, h2, h3⟩ hwf heq
  | ofTryFrom raw y hwf heq =>
    rw [FiniteFloat.try_from] at heq
    split at heq
    · cases heq
      exact valid_new ⟨h1, h2, h3⟩ hwf (by assumption)
    · cases heq
  | ofParse prim s y hp heq =>
    rw [FiniteFloat.from_str] at heq
    split at heq
    · cases heq
    · rename_i v hv
      split at heq
      · cases heq
      · cases heq
        exact valid_from_primitive_us ⟨h1, h2, h3⟩ v _ (hp v hv) (by assumption)
  | ofNeg y hy ih =>
    have h := wf_ne_nan_of_finiteWF_or_inf
      (Or.inl (fpNeg_finiteWF (finiteWF_of_valid ih)))
    exact valid_from_primitive_us ⟨h1, h2, h3⟩ _ _ h.1 h.2
  | ofAdd y z hy hz ihy ihz =>
    have h := wf_ne_nan_of_finiteWF_or_inf
      (fpAdd_finiteWF_or_inf (finiteWF_of_valid ihy) (finiteWF_of_valid ihz))
    exact valid_from_primitive_us ⟨h1, h2, h3⟩ _ _ h.1 h.2
  | ofSub y z hy hz ihy ihz =>
    have h := wf_ne_nan_of_finiteWF_or_inf
      (fpSub_finiteWF_or_inf (finiteWF_of_valid ihy) (finiteWF_of_valid ihz))
    exact valid_from_primitive_us ⟨h1, h2, h3⟩ _ _ h.1 h.2
  | ofMul y z hy hz ihy ihz =>
    have h := wf_ne_nan_of_finiteWF_or_inf
      (fpMul_finiteWF_or_inf (finiteWF_of_valid ihy) (finiteWF_of_valid ihz))
    exact valid_from_primitive_us ⟨h1, h2, h3⟩ _ _ h.1 h.2

/-- Witness for C1 at a concrete input: the invariant holds of the value the
public constant `ZERO` of the 32-bit width produces. -/
theorem produced_valid_witness : FpValid f32Format (FiniteFloat.ZERO f32Format).val :=
  produced_valid (by decide) (FiniteFloat.ZERO f32Format) Produced.ofZERO

theorem ratCmp_gt_iff (a b : ℚ) : ratCmp a b = Ordering.gt ↔ b < a := by
  rw [ratCmp]
  split
  · rename_i h
    constructor
    · intro hc; cases hc
    · intro hb; exact absurd (lt_trans hb h) (lt_irrefl _)
  · split
    · rename_i h; exact ⟨fun _ => h, fun _ => rfl⟩
    · rename_i h1 h2
      constructor
      · intro hc; cases hc
      · intro hb; exact absurd hb h2

theorem ratCmp_lt_iff (a b : ℚ) : ratCmp a b = Ordering.lt ↔ a < b := by
  rw [ratCmp]
  split
  · rename_i h; exact ⟨fun _ => h, fun _ => rfl⟩
  · split
    · rename_i h
      constructor
      · intro hc; cases hc
      · intro hb; exact absurd (lt_trans hb h) (lt_irrefl _)
    · rename_i h1 h2
      constructor
      · intro hc; cases hc
      · intro hb; exact absurd hb h1

theorem ratCmp_eq_iff (a b : ℚ) : ratCmp a b = Ordering.eq ↔ a = b := by
  rw [ratCmp]
  split
  · rename_i h
    constructor
    · intro hc; cases hc
    · intro hb; exact absurd (hb ▸ h) (lt_irrefl _)
  · split
    · rename_i h
      constructor
      · intro hc; cases hc
      · intro hb; exact absurd (hb ▸ h) (lt_irrefl _)
    · rename_i h1 h2
      exact ⟨fun _ => le_antisymm (le_of_not_lt h2) (le_of_not_lt h1), fun _ => rfl⟩

theorem fpIsPos_fin_iff (q : ℚ) : fpIsPos (Fp.fin q) = true ↔ 0 < q := by
  rw [fpIsPos, decide_eq_true_iff]
  have : fpCompare (Fp.fin q) (Fp.zero false) = some (ratCmp q 0) := rfl
  rw [this]
  constructor
  · intro h
    exact (ratCmp_gt_iff q 0).mp (Option.some_injective _ h)
  · intro h
    rw [(ratCmp_gt_iff q 0).mpr h]

/-- C2: for every primitive input, `new` returns `None` exactly on NaN, and
otherwise maps by classification: positive infinity to `MAX`, negative
infinity to `MIN`, any zero to the canonical `ZERO`, a positive subnormal to
`MIN_POSITIVE`, a negative subnormal to `MAX_NEGATIVE`, and a normal value
stored unchanged — as written out in `newSpec`. -/
theorem new_matches_spec (fmt : FloatFormat) (raw : Fp) :
    (FiniteFloat.new fmt raw = none ↔ raw = Fp.nan) ∧
    FiniteFloat.new fmt raw = newSpec fmt raw := by
  cases raw with
  | nan => exact ⟨⟨fun _ => rfl, fun _ => rfl⟩, rfl⟩
  | inf s =>
    cases s with
    | false => exact ⟨⟨fun h => Option.noConfusion h, fun h => Fp.noConfusion h⟩, rfl⟩
    | true => exact ⟨⟨fun h => Option.noConfusion h, fun h => Fp.noConfusion h⟩, rfl⟩
  | zero s => exact ⟨⟨fun h => Option.noConfusion h, fun h => Fp.noConfusion h⟩, rfl⟩
  | fin q =>
    have hne : ¬(Fp.fin q = Fp.nan) := fun h => Fp.noConfusion h
    constructor
    · rw [FiniteFloat.new, if_neg hne]
      exact ⟨fun h => Option.noConfusion h, fun h => absurd h hne⟩
    · rw [FiniteFloat.new, if_neg hne, FiniteFloat.from_primitive,
        FiniteFloat.from_primitive_with_underflow_sign, Fp.classify, newSpec]
      by_cases hq : ratAbs q < fmt.minNormal
      · rw [if_pos hq, if_pos hq]
        show some (if fpIsPos (Fp.fin q) = true then FiniteFloat.MIN_POSITIVE fmt
          else FiniteFloat.MAX_NEGATIVE fmt) = _
        congr 1
        by_cases h0 : 0 < q
        · rw [if_pos ((fpIsPos_fin_iff q).mpr h0), if_pos h0]
        · rw [if_neg (fun hc => h0 ((fpIsPos_fin_iff q).mp hc)), if_neg h0]
      · rw [if_neg hq, if_neg hq]

theorem valid_cases {fmt : FloatFormat} {v : Fp} (h : FpValid fmt v) :
    v = Fp.zero false ∨
      ∃ q, v = Fp.fin q ∧ fmt.minNormal ≤ ratAbs q ∧ ratAbs q ≤ fmt.maxFinite := by
  cases v with
  | nan => exact absurd h id
  | inf s => exact absurd h id
  | zero s => exact Or.inl (by rw [show s = false from h])
  | fin q => exact Or.inr ⟨q, rfl, h⟩

theorem ne_zero_of_min_le {fmt : FloatFormat} {q : ℚ}
    (h : fmt.minNormal ≤ ratAbs q) : q ≠ 0 := by
  intro hq
  rw [hq] at h
  exact absurd (lt_of_lt_of_le (minNormal_pos fmt) h) (by norm_num [ratAbs])

theorem eq_ZERO_iff {fmt : FloatFormat} (a : FiniteFloat fmt) :
    a = FiniteFloat.ZERO fmt ↔ a.val = Fp.zero false := by
  constructor
  · intro h; rw [h]; rfl
  · intro h
    cases a
    cases h
    rfl

theorem sign_of_fin {fmt : FloatFormat} {a : FiniteFloat fmt} {q : ℚ}
    (h : a.val = Fp.fin q) : FiniteFloat.sign a = ratCmp q 0 := by
  rw [FiniteFloat.sign, FiniteFloat.cmp, h]
  rfl

theorem sign_of_zero {fmt : FloatFormat} {a : FiniteFloat fmt}
    (h : a.val = Fp.zero false) : FiniteFloat.sign a = Ordering.eq := by
  rw [FiniteFloat.sign, FiniteFloat.cmp, h]
  rfl

theorem fromUS_zero (fmt : FloatFormat) (s : Bool) (us : Unit → Ordering) :
    FiniteFloat.from_primitive_with_underflow_sign fmt (Fp.zero s) us =
      (match us () with
       | Ordering.lt => FiniteFloat.MAX_NEGATIVE fmt
       | Ordering.eq => FiniteFloat.ZERO fmt
       | Ordering.gt => FiniteFloat.MIN_POSITIVE fmt) := rfl

/-- C3: a product of two nonzero operands that rounds to primitive zero
saturates to `MIN_POSITIVE` when the operand signs agree and to
`MAX_NEGATIVE` when they disagree — never to the canonical `ZERO`; and a
product with a `ZERO` operand is the canonical `ZERO`. -/
theorem mul_underflow_saturates {fmt : FloatFormat} (a b : FiniteFloat fmt)
    (ha : FpValid fmt a.val) (hb : FpValid fmt b.val) :
    ((∃ s, fpMul fmt a.get b.get = Fp.zero s) →
       a ≠ FiniteFloat.ZERO fmt → b ≠ FiniteFloat.ZERO fmt →
       FiniteFloat.mul a b =
           (if FiniteFloat.sign a = FiniteFloat.sign b then FiniteFloat.MIN_POSITIVE fmt
            else FiniteFloat.MAX_NEGATIVE fmt) ∧
         FiniteFloat.mul a b ≠ FiniteFloat.ZERO fmt) ∧
    ((a = FiniteFloat.ZERO fmt ∨ b = FiniteFloat.ZERO fmt) →
       FiniteFloat.mul a b = FiniteFloat.ZERO fmt) := by
  constructor
  · rintro ⟨s, hs⟩ hna hnb
    rcases valid_cases ha with hz | ⟨q1, hq1, hmin1, _⟩
    · exact absurd ((eq_ZERO_iff a).mpr hz) hna
    rcases valid_cases hb with hz | ⟨q2, hq2, hmin2, _⟩
    · exact absurd ((eq_ZERO_iff b).mpr hz) hnb
    have hsa : FiniteFloat.sign a = ratCmp q1 0 := sign_of_fin hq1
    have hsb : FiniteFloat.sign b = ratCmp q2 0 := sign_of_fin hq2
    have h1 : q1 ≠ 0 := ne_zero_of_min_le hmin1
    have h2 : q2 ≠ 0 := ne_zero_of_min_le hmin2
    have hMPne : FiniteFloat.MIN_POSITIVE fmt ≠ FiniteFloat.ZERO fmt := by
      intro h
      exact Fp.noConfusion ((eq_ZERO_iff _).mp h)
    have hMNne : FiniteFloat.MAX_NEGATIVE fmt ≠ FiniteFloat.ZERO fmt := by
      intro h
      exact Fp.noConfusion ((eq_ZERO_iff _).mp h)
    have hmul : FiniteFloat.mul a b =
        (match multiply_signs (FiniteFloat.sign a) (FiniteFloat.sign b) with
         | Ordering.lt => FiniteFloat.MAX_NEGATIVE fmt
         | Ordering.eq => FiniteFloat.ZERO fmt
         | Ordering.gt => FiniteFloat.MIN_POSITIVE fmt) := by
      rw [FiniteFloat.mul, hs, fromUS_zero]
    rcases lt_or_gt_of_ne h1 with hq1s | hq1s <;>
      rcases lt_or_gt_of_ne h2 with hq2s | hq2s
    · rw [hmul, hsa, hsb, (ratCmp_lt_iff q1 0).mpr hq1s, (ratCmp_lt_iff q2 0).mpr hq2s]
      exact ⟨by rw [if_pos rfl]; rfl, hMPne⟩
    · rw [hmul, hsa, hsb, (ratCmp_lt_iff q1 0).mpr hq1s, (ratCmp_gt_iff q2 0).mpr hq2s]
      exact ⟨by rw [if_neg (by intro hc; cases hc)]; rfl, hMNne⟩
    · rw [hmul, hsa, hsb, (ratCmp_gt_iff q1 0).mpr hq1s, (ratCmp_lt_iff q2 0).mpr hq2s]
      exact ⟨by rw [if_neg (by intro hc; cases hc)]; rfl, hMNne⟩
    · rw [hmul, hsa, hsb, (ratCmp_gt_iff q1 0).mpr hq1s, (ratCmp_gt_iff q2 0).mpr hq2s]
      exact ⟨by rw [if_pos rfl]; rfl, hMPne⟩
  · intro h
    rcases h with h | h
    · have hza : a.val = Fp.zero false := (eq_ZERO_iff a).mp h
      have hsa : FiniteFloat.sign a = Ordering.eq := sign_of_zero hza
      have hus : multiply_signs (FiniteFloat.sign a) (FiniteFloat.sign b) = Ordering.eq := by
        rw [hsa]; rfl
      rcases valid_cases hb with hz | ⟨q2, hq2, _, _⟩
      · rw [FiniteFloat.mul]
        rw [show a.get = Fp.zero false from hza, show b.get = Fp.zero false from hz]
        rw [show fpMul fmt (Fp.zero false) (Fp.zero false) = Fp.zero false from rfl,
          fromUS_zero, hus]
      · rw [FiniteFloat.mul]
        rw [show a.get = Fp.zero false from hza, show b.get = Fp.fin q2 from hq2]
        rw [show fpMul fmt (Fp.zero false) (Fp.fin q2) =
          Fp.zero (xor false (decide (q2 < 0))) from rfl, fromUS_zero, hus]
    · have hzb : b.val = Fp.zero false := (eq_ZERO_iff b).mp h
      have hsb : FiniteFloat.sign b = Ordering.eq := sign_of_zero hzb
      have hus : multiply_signs (FiniteFloat.sign a) (FiniteFloat.sign b) = Ordering.eq := by
        rw [hsb]
        cases FiniteFloat.sign a <;> rfl
      rcases valid_cases ha with hz | ⟨q1, hq1, _, _⟩
      · rw [FiniteFloat.mul]
        rw [show a.get = Fp.zero false from hz, show b.get = Fp.zero false from hzb]
        rw [show fpMul fmt (Fp.zero false) (Fp.zero false) = Fp.zero false from rfl,
          fromUS_zero, hus]
      · rw [FiniteFloat.mul]
        rw [show a.get = Fp.fin q1 from hq1, show b.get = Fp.zero false from hzb]
        rw [show fpMul fmt (Fp.fin q1) (Fp.zero false) =
          Fp.zero (xor (decide (q1 < 0)) false) from rfl, fromUS_zero, hus]

/-- Witness for C3 at a concrete input: `MIN_POSITIVE * MIN_POSITIVE` on the
32-bit width underflows to primitive zero with agreeing signs, and indeed
yields `MIN_POSITIVE`, not `ZERO`. -/
theorem mul_underflow_saturates_witness :
    FiniteFloat.mul (FiniteFloat.MIN_POSITIVE f32Format) (FiniteFloat.MIN_POSITIVE f32Format) =
      FiniteFloat.MIN_POSITIVE f32Format ∧
    FiniteFloat.mul (FiniteFloat.MIN_POSITIVE f32Format) (FiniteFloat.MIN_POSITIVE f32Format) ≠
      FiniteFloat.ZERO f32Format := by
  have h := (mul_underflow_saturates (FiniteFloat.MIN_POSITIVE f32Format)
      (FiniteFloat.MIN_POSITIVE f32Format) (by decide) (by decide)).1
      ⟨false, by decide⟩ (by decide) (by decide)
  exact ⟨by rw [h.1, if_pos rfl], h.2⟩

/-- C5: for every value `x` satisfying the invariant, `x + (-x)` is the
canonical `ZERO`, and the stored result is literally positive zero. -/
theorem add_neg_cancel_zero {fmt : FloatFormat} (x : FiniteFloat fmt)
    (hx : FpValid fmt x.val) :
    FiniteFloat.add x (FiniteFloat.neg x) = FiniteFloat.ZERO fmt ∧
    (FiniteFloat.add x (FiniteFloat.neg x)).val = Fp.zero false := by
  suffices h : (FiniteFloat.add x (FiniteFloat.neg x)).val = Fp.zero false from
    ⟨(eq_ZERO_iff _).mpr h, h⟩
  rcases valid_cases hx with hz | ⟨q, hq, hmin, _⟩
  · have hneg : (FiniteFloat.neg x).get = Fp.zero false := by
      rw [FiniteFloat.neg, show x.get = Fp.zero false from hz]
      rfl
    rw [FiniteFloat.add, show x.get = Fp.zero false from hz, hneg]
    rfl
  · have habs : ratAbs (qneg q) = ratAbs q := by
      rw [ratAbs_eq, ratAbs_eq, qneg_eq, abs_neg]
    have hneg : (FiniteFloat.neg x).get = Fp.fin (qneg q) := by
      rw [FiniteFloat.neg, show x.get = Fp.fin q from hq]
      show (FiniteFloat.from_primitive fmt (Fp.fin (qneg q))).get = _
      rw [FiniteFloat.from_primitive, FiniteFloat.from_primitive_with_underflow_sign,
        Fp.classify, habs, if_neg (not_lt.mpr hmin)]
      rfl
    rw [FiniteFloat.add, show x.get = Fp.fin q from hq, hneg]
    show (FiniteFloat.from_primitive fmt (roundRat fmt (qadd q (qneg q)))).val = _
    have hzero : qadd q (qneg q) = 0 := by
      rw [qadd_eq, qneg_eq]
      ring
    rw [hzero, roundRat, if_pos rfl]
    rfl

/-- Witness for C5 at a concrete input: `EPSILON + (-EPSILON)` on the 32-bit
width is the canonical positive zero. -/
theorem add_neg_cancel_zero_witness :
    FiniteFloat.add (FiniteFloat.EPSILON f32Format)
        (FiniteFloat.neg (FiniteFloat.EPSILON f32Format)) = FiniteFloat.ZERO f32Format ∧
    (FiniteFloat.add (FiniteFloat.EPSILON f32Format)
        (FiniteFloat.neg (FiniteFloat.EPSILON f32Format))).val = Fp.zero false :=
  add_neg_cancel_zero (FiniteFloat.EPSILON f32Format) (by decide)

/-- C6: addition and subtraction saturate on overflow, for both widths:
`MAX + MAX = MAX`, `MIN + MIN = MIN`, `MAX - MIN = MAX`, `MIN - MAX = MIN`. -/
theorem add_sub_saturate :
    (FiniteFloat.add (FiniteFloat.MAX f32Format) (FiniteFloat.MAX f32Format) =
       FiniteFloat.MAX f32Format ∧
     FiniteFloat.add (FiniteFloat.MIN f32Format) (FiniteFloat.MIN f32Format) =
       FiniteFloat.MIN f32Format ∧
     FiniteFloat.sub (FiniteFloat.MAX f32Format) (FiniteFloat.MIN f32Format) =
       FiniteFloat.MAX f32Format ∧
     FiniteFloat.sub (FiniteFloat.MIN f32Format) (FiniteFloat.MAX f32Format) =
       FiniteFloat.MIN f32Format) ∧
    (FiniteFloat.add (FiniteFloat.MAX f64Format) (FiniteFloat.MAX f64Format) =
       FiniteFloat.MAX f64Format ∧
     FiniteFloat.add (FiniteFloat.MIN f64Format) (FiniteFloat.MIN f64Format) =
       FiniteFloat.MIN f64Format ∧
     FiniteFloat.sub (FiniteFloat.MAX f64Format) (FiniteFloat.MIN f64Format) =
       FiniteFloat.MAX f64Format ∧
     FiniteFloat.sub (FiniteFloat.MIN f64Format) (FiniteFloat.MAX f64Format) =
       FiniteFloat.MIN f64Format) := by
  exact ⟨⟨by decide, by decide, by decide, by decide⟩,
    ⟨by decide, by decide, by decide, by decide⟩⟩

/-- C7: parsing fails exactly when the primitive parser rejects the text or
its result is NaN; otherwise it succeeds with the classification
construction under the text-derived underflow sign. -/
theorem from_str_spec (fmt : FloatFormat) (prim : List Char → Option Fp)
    (s : List Char) :
    (FiniteFloat.from_str fmt prim s = none ↔
      (prim s = none ∨ prim s = some Fp.nan)) ∧
    (∀ v, prim s = some v → v ≠ Fp.nan →
      FiniteFloat.from_str fmt prim s =
        some (FiniteFloat.from_primitive_with_underflow_sign fmt v
          (fun _ => parse_sign_of_tiny_float s))) := by
  cases hps : prim s with
  | none =>
    constructor
    · simp [FiniteFloat.from_str, hps]
    · intro v hv
      exact absurd hv (by simp)
  | some v =>
    by_cases hv : v = Fp.nan
    · constructor
      · simp only [FiniteFloat.from_str, hps]
        rw [if_pos hv]
        exact ⟨fun _ => Or.inr (by rw [hv]), fun _ => rfl⟩
      · intro v' hv' hne
        cases hv'
        exact absurd hv hne
    · constructor
      · simp only [FiniteFloat.from_str, hps]
        rw [if_neg hv]
        constructor
        · intro h; exact Option.noConfusion h
        · intro h
          rcases h with h | h
          · exact Option.noConfusion h
          · cases h
            exact absurd rfl hv
      · intro v' hv' hne
        cases hv'
        simp only [FiniteFloat.from_str, hps]
        rw [if_neg hv]

/-- Witness for C7 at a concrete input: a primitive parser returning
positive infinity on the empty string makes parsing succeed with the
classification construction. -/
theorem from_str_spec_witness :
    FiniteFloat.from_str f32Format (fun _ => some (Fp.inf false)) [] =
      some (FiniteFloat.from_primitive_with_underflow_sign f32Format (Fp.inf false)
        (fun _ => parse_sign_of_tiny_float [])) :=
  (from_str_spec f32Format (fun _ => some (Fp.inf false)) []).2 (Fp.inf false) rfl
    (by decide)

theorem valid_ne_nan {fmt : FloatFormat} {v : Fp} (h : FpValid fmt v) : v ≠ Fp.nan := by
  rcases valid_cases h with hz | ⟨q, hq, _, _⟩
  · rw [hz]; intro hc; cases hc
  · rw [hq]; intro hc; cases hc

/-- C8: equality implies equal hashes.  Hashing reads only the stored bit
pattern (`self.get().to_bits()`), modelled here as an arbitrary function of
the stored primitive, so it suffices that two equal valid values store the
same primitive — which holds precisely because negative zero is never
stored. -/
theorem beq_hash_consistent {fmt : FloatFormat} (hash : Fp → ℕ)
    (a b : FiniteFloat fmt) (ha : FpValid fmt a.val) (hb : FpValid fmt b.val)
    (h : FiniteFloat.beq a b = true) : hash a.val = hash b.val := by
  suffices hval : a.val = b.val from congrArg hash hval
  have hcmp : fpCompare a.val b.val = some Ordering.eq := of_decide_eq_true h
  rcases valid_cases ha with hza | ⟨q1, hq1, hmin1, _⟩ <;>
    rcases valid_cases hb with hzb | ⟨q2, hq2, hmin2, _⟩
  · rw [hza, hzb]
  · rw [hza, hq2] at hcmp ⊢
    have : ratCmp 0 q2 = Ordering.eq := Option.some_injective _ hcmp
    exact absurd ((ratCmp_eq_iff 0 q2).mp this).symm (ne_zero_of_min_le hmin2)
  · rw [hq1, hzb] at hcmp ⊢
    have : ratCmp q1 0 = Ordering.eq := Option.some_injective _ hcmp
    exact absurd ((ratCmp_eq_iff q1 0).mp this) (ne_zero_of_min_le hmin1)
  · rw [hq1, hq2] at hcmp ⊢
    have : ratCmp q1 q2 = Ordering.eq := Option.some_injective _ hcmp
    rw [(ratCmp_eq_iff q1 q2).mp this]

/-- Witness for C8 at a concrete input: the canonical zero and the negation
of zero are equal and hash equally under a nontrivial hash. -/
theorem beq_hash_consistent_witness :
    (fun v : Fp => if v = Fp.zero false then 7 else 9) (FiniteFloat.ZERO f32Format).val =
    (fun v : Fp => if v = Fp.zero false then 7 else 9)
      (FiniteFloat.neg (FiniteFloat.ZERO f32Format)).val :=
  beq_hash_consistent (fun v : Fp => if v = Fp.zero false then 7 else 9)
    (FiniteFloat.ZERO f32Format) (FiniteFloat.neg (FiniteFloat.ZERO f32Format))
    (by decide) (by decide) (by decide)

/-- C10: on values satisfying the invariant, the primitive comparison that
`Ord::cmp` unwraps is always defined (`partial_cmp(...).unwrap()` cannot
panic), and likewise for the comparison against `ZERO` inside `sign`. -/
theorem cmp_never_panics {fmt : FloatFormat} (a b : FiniteFloat fmt)
    (ha : FpValid fmt a.val) (hb : FpValid fmt b.val) :
    (fpCompare a.val b.val).isSome = true ∧
    (fpCompare a.val (FiniteFloat.ZERO fmt).val).isSome = true := by
  have hna := valid_ne_nan ha
  have hnb := valid_ne_nan hb
  constructor
  · cases hva : a.val <;> cases hvb : b.val <;>
      first
      | exact absurd hva hna
      | exact absurd hvb hnb
      | rfl
  · cases hva : a.val <;>
      first
      | exact absurd hva hna
      | rfl

/-- Witness for C10 at a concrete input: comparing `MAX` with `ZERO` on the
32-bit width is defined. -/
theorem cmp_never_panics_witness :
    (fpCompare (FiniteFloat.MAX f32Format).val (FiniteFloat.ZERO f32Format).val).isSome = true ∧
    (fpCompare (FiniteFloat.MAX f32Format).val (FiniteFloat.ZERO f32Format).val).isSome = true :=
  cmp_never_panics (FiniteFloat.MAX f32Format) (FiniteFloat.ZERO f32Format)
    (by decide) (by decide)

theorem psAux_eq_amendedAux (s : List Char) : ∀ sign,
    parse_sign_of_tiny_float_aux sign s =
      signScanAmendedAux sign (s.takeWhile tinyFloatChar) := by
  induction s with
  | nil => intro sign; rfl
  | cons c rest ih =>
    intro sign
    have hnziff : isNonzeroDigit c = true ↔ (49 ≤ c.toNat ∧ c.toNat ≤ 57) := by
      simp [isNonzeroDigit]
    by_cases ht : tinyFloatChar c = true
    · have htp : c.toNat = 45 ∨ c.toNat = 43 ∨ c.toNat = 46 ∨
          (48 ≤ c.toNat ∧ c.toNat ≤ 57) := by
        have h := ht
        simp [tinyFloatChar, isDigitCh] at h
        omega
      rw [List.takeWhile_cons_of_pos ht, parse_sign_of_tiny_float_aux, signScanAmendedAux]
      by_cases h1 : c.toNat = 45
      · rw [if_pos h1, if_pos h1]
        exact ih _
      · rw [if_neg h1, if_neg h1]
        by_cases h2 : c.toNat = 43 ∨ c.toNat = 48 ∨ c.toNat = 46
        · rw [if_pos h2, if_neg (show ¬(isNonzeroDigit c = true) by rw [hnziff]; omega)]
          exact ih _
        · have h3 : 49 ≤ c.toNat ∧ c.toNat ≤ 57 := by omega
          rw [if_neg h2, if_pos h3, if_pos (hnziff.mpr h3)]
    · have htp : ¬(c.toNat = 45 ∨ c.toNat = 43 ∨ c.toNat = 46 ∨
          (48 ≤ c.toNat ∧ c.toNat ≤ 57)) := by
        have h := ht
        simp [tinyFloatChar, isDigitCh] at h
        omega
      rw [List.takeWhile_cons_of_neg ht, parse_sign_of_tiny_float_aux,
        if_neg (by omega), if_neg (by omega), if_neg (by omega)]
      rfl

/-- C4 counterexample: on the input `"+-1"` the source's scan continues past
the prefix matching `[+-]? digit* ('.' digit*)?` (which is just `"+"`),
sees the later `'-'` and `'1'`, and returns "negative", while the scan the
claim describes stops at the end of that prefix and returns "zero". -/
theorem parse_sign_scan_counterexample :
    ¬ (parse_sign_of_tiny_float ['+', '-', '1'] =
        signScanSpec ['+', '-', '1']) := by decide

/-- C4 (amended): the sign-recovery scan follows the claimed per-character
actions — `'-'` sets the running sign negative, `'+'`, `'0'`, `'.'` are
skipped, the first digit `1`–`9` returns the running sign, and exhaustion
returns "zero" — over the maximal prefix of sign, digit, and point
characters (not the regex-shaped prefix), stopping at the first character
outside that set. -/
theorem parse_sign_scan_amended (s : List Char) :
    parse_sign_of_tiny_float s = signScanAmended s := by
  rw [parse_sign_of_tiny_float, signScanAmended]
  exact psAux_eq_amendedAux s Ordering.gt

/-- C9 counterexample: the claim lists `RADIX` among the provided constants,
but the `impl` block does not define it (nor `DIGITS`, `MIN_EXP`, `MAX_EXP`,
`MIN_10_EXP`, `MAX_10_EXP`). -/
theorem constants_surface_counterexample :
    "RADIX" ∈ claimedConstants ∧ ¬ ("RADIX" ∈ publicConstants) := by decide

/-- C9 (amended): each width's public surface provides exactly the constants
`ZERO`, `EPSILON`, `MIN`, `MAX`, `MIN_POSITIVE`, `MAX_NEGATIVE` and
`MANTISSA_DIGITS`, mirrored from the underlying representation
(`MANTISSA_DIGITS` is 24 and 53; `EPSILON` is `2^(1-prec)`; `MIN_POSITIVE`
is the smallest normal; `MAX_NEGATIVE` its negation; `MIN` the negation of
`MAX`); the six constants `RADIX`, `DIGITS`, `MIN_EXP`, `MAX_EXP`,
`MIN_10_EXP` and `MAX_10_EXP` are not provided. -/
theorem constants_surface_amended :
    (∀ c, c ∈ publicConstants → c ∈ claimedConstants) ∧
    (¬ ("RADIX" ∈ publicConstants) ∧ ¬ ("DIGITS" ∈ publicConstants) ∧
     ¬ ("MIN_EXP" ∈ publicConstants) ∧ ¬ ("MAX_EXP" ∈ publicConstants) ∧
     ¬ ("MIN_10_EXP" ∈ publicConstants) ∧ ¬ ("MAX_10_EXP" ∈ publicConstants)) ∧
    (FiniteFloat.MANTISSA_DIGITS f32Format = 24 ∧
     FiniteFloat.MANTISSA_DIGITS f64Format = 53) ∧
    (∀ fmt : FloatFormat,
      FiniteFloat.ZERO fmt = ⟨Fp.zero false⟩ ∧
      FiniteFloat.EPSILON fmt = ⟨Fp.fin (pow2 (1 - fmt.prec))⟩ ∧
      FiniteFloat.MAX fmt = ⟨Fp.fin fmt.maxFinite⟩ ∧
      FiniteFloat.MIN fmt = ⟨Fp.fin (qneg fmt.maxFinite)⟩ ∧
      FiniteFloat.MIN_POSITIVE fmt = ⟨Fp.fin fmt.minNormal⟩ ∧
      FiniteFloat.MAX_NEGATIVE fmt = ⟨Fp.fin (qneg fmt.minNormal)⟩) := by
  refine ⟨by decide, by decide, ⟨by decide, by decide⟩, ?_⟩
  intro fmt
  exact ⟨rfl, rfl, rfl, rfl, rfl, rfl⟩

/-- Witness for the amended C9 at a concrete input: `ZERO` is among the
claimed constants. -/
theorem constants_surface_amended_witness : "ZERO" ∈ claimedConstants :=
  constants_surface_amended.1 "ZERO" (by decide)
